import Mathlib

/-!
Verification of the student-grouping core (tut01.py): branch-code
extraction, the branch-wise round-robin allocator, the uniform
chunk-and-merge allocator, and the summary matrix compiler.
-/

namespace Tut01

/-- A student record: Roll, Name, Email copied from input, Branch derived. -/
structure Rec where
  roll : String
  name : String
  email : String
  branch : String
deriving DecidableEq, Repr

/-- ASCII uppercase letters, the character class of the pattern [A-Z]. -/
def isUpper (c : Char) : Bool := decide ('A' ≤ c) && decide (c ≤ 'Z')

/-- Leftmost match of [A-Z]{2}: scan left to right for two adjacent
uppercase characters, as re.search does inside branch_finder. -/
def findTwoUpper : List Char → Option (Char × Char)
  | a :: b :: rest =>
      if isUpper a && isUpper b then some (a, b) else findTwoUpper (b :: rest)
  | _ => none

/-- branch_finder: "NA" on a missing value, else the first [A-Z]{2} match of
the string form, else "NA".  A missing (NaN) identifier is modelled as none. -/
def branch_finder : Option String → String
  | none => "NA"
  | some s =>
      match findTwoUpper s.data with
      | some (a, b) => String.mk [a, b]
      | none => "NA"

/-- Position i starts a two-uppercase-letter match in l: the specification
reading of one [A-Z]{2} occurrence. -/
def upperPair (l : List Char) (i : Nat) : Prop :=
  i + 1 < l.length
    ∧ isUpper (l.getD i 'a') = true
    ∧ isUpper (l.getD (i + 1) 'a') = true

instance (l : List Char) (i : Nat) : Decidable (upperPair l i) := by
  unfold upperPair
  infer_instance

/-- pd.unique: the distinct values of a list in order of first appearance. -/
def uniqueKeepOrder : List String → List String
  | [] => []
  | c :: rest => c :: (uniqueKeepOrder rest).filter (fun d => decide (d ≠ c))

/-- The fixed branch-priority reference list. -/
def priority_branches : List String :=
  ["AI", "CB", "CE", "CH", "CS", "CT", "EC", "MC", "MM", "MT"]

def recordBranches (records : List Rec) : List String := records.map (·.branch)

/-- The distinct branch codes present, in first-seen order
(list(pd.unique(records["Branch"]))). -/
def active_codes (records : List Rec) : List String :=
  uniqueKeepOrder (recordBranches records)

/-- The draw cycle: the priority list filtered to present codes, then the
present codes outside the priority list in first-seen order. -/
def cycleOf (records : List Rec) : List String :=
  priority_branches.filter (fun c => decide (c ∈ active_codes records)) ++
    (active_codes records).filter (fun c => decide (c ∉ priority_branches))

/-- The per-branch stock: records of one branch in original row order. -/
def stock (records : List Rec) (c : String) : List Rec :=
  records.filter (fun r => decide (r.branch = c))

def totalLen (stocks : List (List Rec)) : Nat := (stocks.map List.length).sum

/-- One sweep of the draw cycle (the inner for-loop of branchwise_allocation):
walk the per-branch stocks in cycle order, popping one record from each
non-empty stock while the bundle is below its limit; the Bool accumulates
whether any record moved. -/
def roundStep (limit : Nat) : List (List Rec) → List Rec → Bool →
    List (List Rec) × List Rec × Bool
  | [], bundle, moved => ([], bundle, moved)
  | s :: rest, bundle, moved =>
      if limit ≤ bundle.length then (s :: rest, bundle, moved)
      else
        match s with
        | [] =>
            let out := roundStep limit rest bundle moved
            ([] :: out.1, out.2.1, out.2.2)
        | r :: stail =>
            let out := roundStep limit rest (bundle ++ [r]) true
            (stail :: out.1, out.2.1, out.2.2)

/-- The while-loop filling one group: repeat rounds until the bundle reaches
its limit or a round moves nothing.  Fuel bounds the number of rounds;
totalLen stocks + 1 rounds always suffice, which is what the caller passes. -/
def fillGroup (limit : Nat) : Nat → List (List Rec) → List Rec →
    List (List Rec) × List Rec
  | 0, stocks, bundle => (stocks, bundle)
  | fuel + 1, stocks, bundle =>
      if bundle.length < limit then
        let out := roundStep limit stocks bundle false
        if out.2.2 then fillGroup limit fuel out.1 out.2.1
        else (out.1, out.2.1)
      else (stocks, bundle)

/-- The outer for-loop of branchwise_allocation: fill each group in index
order from the shared stocks, one target limit per group. -/
def allocGroups : List (List Rec) → List Nat → List (List Rec)
  | _, [] => []
  | stocks, limit :: rest =>
      let out := fillGroup limit (totalLen stocks + 1) stocks []
      out.2 :: allocGroups out.1 rest

/-- Per-group target sizes: base = size / N, the first size % N groups get
one extra. -/
def targetsOf (size total_parts : Nat) : List Nat :=
  (List.range total_parts).map
    (fun i => size / total_parts + if i < size % total_parts then 1 else 0)

def branchwise_allocation (records : List Rec) (total_parts : Nat) :
    List (List Rec) :=
  allocGroups ((cycleOf records).map (stock records))
    (targetsOf records.length total_parts)

/-- Stable insertion sort; models Python's stable sorted(...) orderings. -/
def insertBy (le : α → α → Bool) (a : α) : List α → List α
  | [] => [a]
  | b :: rest => if le a b then a :: b :: rest else b :: insertBy le a rest

def sortBy (le : α → α → Bool) : List α → List α
  | [] => []
  | a :: rest => insertBy le a (sortBy le rest)

def countBranch (records : List Rec) (c : String) : Nat :=
  (stock records c).length

/-- Branch codes ordered by descending population
(value_counts().sort_values(ascending=False)); ties are modelled as keeping
first-seen order (pandas leaves the tie order unspecified; none of the
results below depend on it). -/
def sorted_codes (records : List Rec) : List String :=
  sortBy (fun c d => decide (countBranch records d ≤ countBranch records c))
    (active_codes records)

/-- Ceiling division: math.ceil(size / total_parts) for total_parts ≥ 1. -/
def packSize (size total_parts : Nat) : Nat :=
  (size + total_parts - 1) / total_parts

/-- The chunk-cutting while-loop on one branch's rows, fuelled so that it is
structurally recursive: each step consumes p ≥ 1 records, so a fuel of
l.length always suffices (see splitChunks below). -/
def splitChunksF (p : Nat) : Nat → List Rec → List (List Rec) × List Rec
  | 0, l => ([], l)
  | fuel + 1, l =>
      if 0 < p ∧ p ≤ l.length then
        let out := splitChunksF p fuel (l.drop p)
        (l.take p :: out.1, out.2)
      else ([], l)

/-- Consecutive slices of exactly p records, plus the remaining tail.  The
0 < p guard matches the source, where pack_size ≥ 1 whenever any records
exist. -/
def splitChunks (p : Nat) (l : List Rec) : List (List Rec) × List Rec :=
  splitChunksF p l.length l

/-- The chunking for-loop over the branch partitions: collect every full
chunk as a finalized bundle and every non-empty tail as a leftover block. -/
def chunkPhase (p : Nat) : List (List Rec) → List (List Rec) × List (List Rec)
  | [] => ([], [])
  | rows :: rest =>
      let c := splitChunks p rows
      let o := chunkPhase p rest
      (c.1 ++ o.1, (if c.2.isEmpty then [] else [c.2]) ++ o.2)

/-- The inner merge while-loop: while capacity remains and blocks exist, pop
the front block; append it whole if it fits, otherwise append a prefix of
exactly the remaining capacity and push the suffix back to the front. -/
def fillFrom : Nat → List Rec → List (List Rec) → List Rec × List (List Rec)
  | _, group, [] => (group, [])
  | remain, group, cand :: rest =>
      if remain = 0 then (group, cand :: rest)
      else if cand.length ≤ remain then
        fillFrom (remain - cand.length) (group ++ cand) rest
      else (group ++ cand.take remain, cand.drop remain :: rest)

/-- The outer merge while-loop, fuelled so that it is structurally
recursive: each iteration shrinks the deque (fillFrom pops at least the
block it cannot fit back), so a fuel of q.length always suffices. -/
def mergeLoopF (p : Nat) : Nat → List (List Rec) → List (List Rec)
  | 0, _ => []
  | _, [] => []
  | fuel + 1, block :: rest =>
      (fillFrom (p - block.length) block rest).1 ::
        mergeLoopF p fuel (fillFrom (p - block.length) block rest).2

/-- The outer merge while-loop: seed a group with the front block of the
deque and fill it from the rest, until no blocks remain. -/
def mergeLoop (p : Nat) (q : List (List Rec)) : List (List Rec) :=
  mergeLoopF p q.length q

/-- The branch partitions in descending-population order. -/
def partitionsOf (records : List Rec) : List (List Rec) :=
  (sorted_codes records).map (stock records)

/-- The leftover deque: blocks sorted descending by length (stable). -/
def leftoversOf (records : List Rec) (total_parts : Nat) : List (List Rec) :=
  sortBy (fun a b => decide (b.length ≤ a.length))
    (chunkPhase (packSize records.length total_parts) (partitionsOf records)).2

/-- The final padding while-loop: append empty groups until there are n. -/
def padTo (n : Nat) (l : List (List Rec)) : List (List Rec) :=
  l ++ List.replicate (n - l.length) []

def uniform_allocation (records : List Rec) (total_parts : Nat) :
    List (List Rec) :=
  padTo total_parts
    ((chunkPhase (packSize records.length total_parts) (partitionsOf records)).1
      ++ mergeLoop (packSize records.length total_parts)
        (leftoversOf records total_parts))

/-- Lexicographic order on character lists (Python string comparison). -/
def lexLe : List Char → List Char → Bool
  | [], _ => true
  | _ :: _, [] => false
  | a :: as, b :: bs => if a = b then lexLe as bs else decide (a < b)

/-- sorted(set().union(...)): the distinct branch codes appearing in any
bundle, in lexicographic order (empty bundles contribute nothing, so the
union over non-empty bundles equals the union over all). -/
def summaryCodes (bundles : List (List Rec)) : List String :=
  sortBy (fun s t => lexLe s.data t.data)
    (uniqueKeepOrder (recordBranches bundles.flatten))

/-- One row of the summary: the per-branch counts then the Total column. -/
def summaryRow (codes : List String) (pack : List Rec) : List Nat :=
  codes.map (fun c => (pack.filter (fun r => decide (r.branch = c))).length) ++
    [pack.length]

/-- compile_summary: an N-row matrix, row i counting the branches of bundle i
(zero rows for missing bundles, matching the zero-initialized frame).  Row
labels and the trailing reset_index are presentation only and are dropped. -/
def compile_summary (bundles : List (List Rec)) (total_parts : Nat) :
    List (List Nat) :=
  (List.range total_parts).map
    (fun i => summaryRow (summaryCodes bundles) (bundles.getD i []))

/-- Cell accessor for the summary matrix: row i, column j. -/
def entry (m : List (List Nat)) (i j : Nat) : Nat := (m.getD i []).getD j 0

/-- Checks, along the merge loop's own execution, that every group seed is
at least as long as every other block then in the deque — the property
asserted of the merge phase's seeds.  Fuelled like mergeLoopF. -/
def seedsLongestF (p : Nat) : Nat → List (List Rec) → Bool
  | 0, _ => true
  | _, [] => true
  | fuel + 1, block :: rest =>
      (rest.all (fun b => decide (b.length ≤ block.length))) &&
        seedsLongestF p fuel (fillFrom (p - block.length) block rest).2

def seedsLongest (p : Nat) (q : List (List Rec)) : Bool :=
  seedsLongestF p q.length q

/-- n records of one branch, with distinct roll numbers. -/
def mkRecs (b : String) (n : Nat) : List Rec :=
  (List.range n).map (fun i => ⟨b ++ toString i, "", "", b⟩)

/-- A small four-student input (three CS, one EC). -/
def sampleRecords : List Rec :=
  [⟨"21CS001", "", "", "CS"⟩, ⟨"21CS002", "", "", "CS"⟩,
   ⟨"21CS003", "", "", "CS"⟩, ⟨"21EC001", "", "", "EC"⟩]

/-- 31 records over six branches with populations 6,6,6,5,4,4: with N = 6
the pack size is 6, and the leftover deque starts as blocks of lengths
5,4,4. -/
def cexRecords : List Rec :=
  mkRecs "CS" 6 ++ mkRecs "EC" 6 ++ mkRecs "MM" 6 ++ mkRecs "AI" 5
    ++ mkRecs "CB" 4 ++ mkRecs "CE" 4

/-! ### Generic lemmas about the list helpers -/

/-- Filling a group never lengthens the deque. -/
theorem fillFrom_queue_length (remain : Nat) (group : List Rec)
    (q : List (List Rec)) : (fillFrom remain group q).2.length ≤ q.length := by
  induction q generalizing remain group with
  | nil => simp [fillFrom]
  | cons cand rest ih =>
      simp only [fillFrom]
      split
      · exact Nat.le_refl _
      · split
        · exact Nat.le_trans (ih _ _) (Nat.le_succ _)
        · exact Nat.le_refl _

theorem insertBy_perm (le : α → α → Bool) (a : α) (l : List α) :
    (insertBy le a l).Perm (a :: l) := by
  induction l with
  | nil => exact List.Perm.refl _
  | cons b rest ih =>
      simp only [insertBy]
      split
      · exact List.Perm.refl _
      · exact (ih.cons b).trans (List.Perm.swap a b rest)

theorem sortBy_perm (le : α → α → Bool) (l : List α) : (sortBy le l).Perm l := by
  induction l with
  | nil => exact List.Perm.refl _
  | cons a rest ih => exact (insertBy_perm le a (sortBy le rest)).trans (ih.cons a)

theorem mem_uniqueKeepOrder {c : String} {l : List String} :
    c ∈ uniqueKeepOrder l ↔ c ∈ l := by
  induction l with
  | nil => simp [uniqueKeepOrder]
  | cons a rest ih =>
      simp only [uniqueKeepOrder, List.mem_cons, List.mem_filter,
        decide_eq_true_eq]
      constructor
      · rintro (rfl | ⟨hc, _⟩)
        · exact Or.inl rfl
        · exact Or.inr (ih.mp hc)
      · rintro (rfl | hc)
        · exact Or.inl rfl
        · by_cases hca : c = a
          · exact Or.inl hca
          · exact Or.inr ⟨ih.mpr hc, hca⟩

theorem uniqueKeepOrder_sublist :
    ∀ l : List String, (uniqueKeepOrder l).Sublist l
  | [] => List.Sublist.refl _
  | a :: rest =>
      List.Sublist.cons₂ a
        (((uniqueKeepOrder rest).filter_sublist).trans
          (uniqueKeepOrder_sublist rest))

theorem uniqueKeepOrder_nodup : ∀ l : List String, (uniqueKeepOrder l).Nodup := by
  intro l
  induction l with
  | nil => exact List.nodup_nil
  | cons a rest ih =>
      rw [uniqueKeepOrder, List.nodup_cons]
      refine ⟨fun hmem => ?_, List.Nodup.filter _ ih⟩
      have := (List.mem_filter.mp hmem).2
      simp at this

/-- The elements of uniqueKeepOrder appear in first-occurrence order. -/
theorem uniqueKeepOrder_pairwise_indexOf :
    ∀ l : List String,
      (uniqueKeepOrder l).Pairwise
        (fun c d => List.indexOf c l < List.indexOf d l) := by
  intro l
  induction l with
  | nil => exact List.Pairwise.nil
  | cons a rest ih =>
      rw [uniqueKeepOrder, List.pairwise_cons]
      constructor
      · intro d hd
        have hd' := List.mem_filter.mp hd
        have hda : d ≠ a := by
          have := hd'.2; simpa using this
        rw [List.indexOf_cons_self, List.indexOf_cons_ne _ hda.symm]
        exact Nat.succ_pos _
      · have hpair := List.Pairwise.filter (fun d => decide (d ≠ a)) ih
        refine hpair.imp_of_mem ?_
        intro c d hc hd hlt
        have hca : c ≠ a := by have := (List.mem_filter.mp hc).2; simpa using this
        have hda : d ≠ a := by have := (List.mem_filter.mp hd).2; simpa using this
        rw [List.indexOf_cons_ne _ hca.symm, List.indexOf_cons_ne _ hda.symm]
        exact Nat.succ_lt_succ hlt

/-- Reading a list back off by positions. -/
theorem map_range_getD (l : List α) (d : α) :
    (List.range l.length).map (fun i => l.getD i d) = l := by
  induction l with
  | nil => rfl
  | cons a rest ih =>
      have hfun : ((fun i => (a :: rest).getD i d) ∘ Nat.succ)
          = fun i => rest.getD i d := by
        funext i
        simp [List.getD_cons_succ]
      rw [List.length_cons, List.range_succ_eq_map, List.map_cons,
        List.map_map, hfun, ih]
      simp

theorem flatten_replicate_nil (n : Nat) :
    (List.replicate n ([] : List Rec)).flatten = [] := by
  induction n with
  | zero => rfl
  | succ n ih => simp [List.replicate_succ, ih]

/-! ### Partitioning records by branch code -/

theorem stock_of_filter_ne (records : List Rec) {c d : String} (hdc : d ≠ c) :
    stock (records.filter (fun r => !decide (r.branch = c))) d
      = stock records d := by
  rw [stock, List.filter_filter, stock]
  apply List.filter_congr
  intro r _
  by_cases h : r.branch = d
  · simp [h, hdc]
  · simp [h]

/-- Filtering by each code of a duplicate-free covering list splits the
records into a permutation of themselves. -/
theorem flatten_stocks_perm :
    ∀ (codes : List String) (records : List Rec),
      codes.Nodup → (∀ r ∈ records, r.branch ∈ codes) →
      ((codes.map (stock records)).flatten).Perm records := by
  intro codes
  induction codes with
  | nil =>
      intro records _ hcov
      have hrec : records = [] := List.eq_nil_iff_forall_not_mem.mpr
        (fun r hr => by simpa using hcov r hr)
      simp [hrec]
  | cons c rest ih =>
      intro records hnd hcov
      rw [List.map_cons, List.flatten_cons]
      have hnotc : c ∉ rest := (List.nodup_cons.mp hnd).1
      have hndr : rest.Nodup := (List.nodup_cons.mp hnd).2
      set neg := records.filter (fun r => !decide (r.branch = c)) with hneg
      have hmap : rest.map (stock records) = rest.map (stock neg) := by
        apply List.map_congr_left
        intro d hd
        have hdc : d ≠ c := fun h => hnotc (h ▸ hd)
        exact (stock_of_filter_ne records hdc).symm
      have hcov' : ∀ r ∈ neg, r.branch ∈ rest := by
        intro r hr
        have hr' := List.mem_filter.mp hr
        rcases List.mem_cons.mp (hcov r hr'.1) with h | h
        · exfalso
          have := hr'.2
          simp [h] at this
        · exact h
      have hperm := ih neg hndr hcov'
      rw [hmap]
      refine (List.Perm.append_left _ hperm).trans ?_
      rw [stock, hneg]
      exact List.filter_append_perm _ records

theorem totalLen_eq_flatten_length (stocks : List (List Rec)) :
    totalLen stocks = stocks.flatten.length := by
  rw [totalLen, List.length_flatten]

theorem priority_nodup : priority_branches.Nodup := by decide

theorem mem_active_codes {records : List Rec} {c : String} :
    c ∈ active_codes records ↔ c ∈ recordBranches records := mem_uniqueKeepOrder

theorem mem_cycleOf {records : List Rec} {c : String} :
    c ∈ cycleOf records ↔ c ∈ recordBranches records := by
  rw [cycleOf, List.mem_append]
  simp only [List.mem_filter, decide_eq_true_eq]
  constructor
  · rintro (⟨_, h⟩ | ⟨h, _⟩)
    · exact mem_active_codes.mp h
    · exact mem_active_codes.mp h
  · intro h
    by_cases hp : c ∈ priority_branches
    · exact Or.inl ⟨hp, mem_active_codes.mpr h⟩
    · exact Or.inr ⟨mem_active_codes.mpr h, hp⟩

theorem cycleOf_nodup (records : List Rec) : (cycleOf records).Nodup := by
  rw [cycleOf]
  refine List.Nodup.append (List.Nodup.filter _ priority_nodup)
    (List.Nodup.filter _ (uniqueKeepOrder_nodup _)) ?_
  rw [List.disjoint_left]
  intro c hc hc2
  have h1 := (List.mem_filter.mp hc).1
  have h2 := (List.mem_filter.mp hc2).2
  simp at h2
  exact h2 h1

theorem totalLen_stocks (records : List Rec) :
    totalLen ((cycleOf records).map (stock records)) = records.length := by
  rw [totalLen_eq_flatten_length]
  exact (flatten_stocks_perm (cycleOf records) records (cycleOf_nodup records)
    (fun r hr => mem_cycleOf.mpr (List.mem_map_of_mem _ hr))).length_eq

/-! ### The branch-wise allocator: rounds and group filling -/

theorem totalLen_nil : totalLen [] = 0 := rfl

theorem totalLen_cons (s : List Rec) (rest : List (List Rec)) :
    totalLen (s :: rest) = s.length + totalLen rest := by
  simp [totalLen]

/-- A round never creates or destroys records: bundle plus stocks is
conserved. -/
theorem roundStep_conserve (limit : Nat) :
    ∀ (stocks : List (List Rec)) (bundle : List Rec) (moved : Bool),
      (roundStep limit stocks bundle moved).2.1.length
          + totalLen (roundStep limit stocks bundle moved).1
        = bundle.length + totalLen stocks := by
  intro stocks
  induction stocks with
  | nil => intro bundle moved; rfl
  | cons s rest ih =>
      intro bundle moved
      simp only [roundStep]
      split
      · rfl
      · cases s with
        | nil =>
            show (roundStep limit rest bundle moved).2.1.length
                + totalLen ([] :: (roundStep limit rest bundle moved).1)
              = bundle.length + totalLen ([] :: rest)
            rw [totalLen_cons, totalLen_cons]
            have := ih bundle moved
            simp only [List.length_nil]
            omega
        | cons r stail =>
            show (roundStep limit rest (bundle ++ [r]) true).2.1.length
                + totalLen (stail :: (roundStep limit rest (bundle ++ [r]) true).1)
              = bundle.length + totalLen ((r :: stail) :: rest)
            rw [totalLen_cons, totalLen_cons]
            have := ih (bundle ++ [r]) true
            simp only [List.length_append, List.length_cons, List.length_nil,
              List.length_singleton] at this ⊢
            omega

/-- A round only appends to the bundle. -/
theorem roundStep_bundle_mono (limit : Nat) :
    ∀ (stocks : List (List Rec)) (bundle : List Rec) (moved : Bool),
      bundle.length ≤ (roundStep limit stocks bundle moved).2.1.length := by
  intro stocks
  induction stocks with
  | nil => intro bundle moved; exact Nat.le_refl _
  | cons s rest ih =>
      intro bundle moved
      simp only [roundStep]
      split
      · exact Nat.le_refl _
      · cases s with
        | nil => exact ih bundle moved
        | cons r stail =>
            refine Nat.le_trans ?_ (ih (bundle ++ [r]) true)
            simp

/-- A round never pushes the bundle past its limit. -/
theorem roundStep_bundle_le (limit : Nat) :
    ∀ (stocks : List (List Rec)) (bundle : List Rec) (moved : Bool),
      bundle.length ≤ limit →
      (roundStep limit stocks bundle moved).2.1.length ≤ limit := by
  intro stocks
  induction stocks with
  | nil => intro bundle moved hb; exact hb
  | cons s rest ih =>
      intro bundle moved hb
      simp only [roundStep]
      split
      · exact hb
      · rename_i hlt
        cases s with
        | nil => exact ih bundle moved hb
        | cons r stail =>
            refine ih (bundle ++ [r]) true ?_
            simp only [List.length_append, List.length_singleton]
            omega

/-- The moved flag is monotone: once set it stays set. -/
theorem roundStep_moved_mono (limit : Nat) :
    ∀ (stocks : List (List Rec)) (bundle : List Rec),
      (roundStep limit stocks bundle true).2.2 = true := by
  intro stocks
  induction stocks with
  | nil => intro bundle; rfl
  | cons s rest ih =>
      intro bundle
      simp only [roundStep]
      split
      · rfl
      · cases s with
        | nil => exact ih bundle
        | cons r stail => exact ih (bundle ++ [r])

/-- A round that moves nothing leaves everything unchanged, and if the
bundle was still below its limit this means every stock was empty. -/
theorem roundStep_no_move (limit : Nat) :
    ∀ (stocks : List (List Rec)) (bundle : List Rec),
      (roundStep limit stocks bundle false).2.2 = false →
      (roundStep limit stocks bundle false).1 = stocks
      ∧ (roundStep limit stocks bundle false).2.1 = bundle
      ∧ (bundle.length < limit → ∀ s ∈ stocks, s = []) := by
  intro stocks
  induction stocks with
  | nil => intro bundle _; exact ⟨rfl, rfl, by intro _ s hs; cases hs⟩
  | cons s rest ih =>
      intro bundle hm
      simp only [roundStep] at hm ⊢
      split at hm
      · rename_i hge
        split
        · exact ⟨rfl, rfl, fun hlt => absurd hlt (by omega)⟩
        · omega
      · rename_i hge
        split
        · omega
        · cases s with
          | nil =>
              simp only at hm ⊢
              obtain ⟨h1, h2, h3⟩ := ih bundle hm
              refine ⟨by rw [h1], h2, ?_⟩
              intro hlt t ht
              rcases List.mem_cons.mp ht with rfl | ht
              · rfl
              · exact h3 hlt t ht
          | cons r stail =>
              exfalso
              have := roundStep_moved_mono limit rest (bundle ++ [r])
              simp only at hm
              rw [this] at hm
              cases hm

/-- A round that reports movement strictly grew the bundle. -/
theorem roundStep_progress (limit : Nat) :
    ∀ (stocks : List (List Rec)) (bundle : List Rec),
      (roundStep limit stocks bundle false).2.2 = true →
      bundle.length < (roundStep limit stocks bundle false).2.1.length := by
  intro stocks
  induction stocks with
  | nil => intro bundle hm; cases hm
  | cons s rest ih =>
      intro bundle hm
      simp only [roundStep] at hm ⊢
      split at hm
      · cases hm
      · rename_i hge
        split
        · omega
        · cases s with
          | nil =>
              simp only at hm ⊢
              exact ih bundle hm
          | cons r stail =>
              simp only at hm ⊢
              have h1 := roundStep_bundle_mono limit rest (bundle ++ [r]) true
              simp only [List.length_append, List.length_singleton] at h1
              omega

theorem totalLen_all_nil {stocks : List (List Rec)}
    (h : ∀ s ∈ stocks, s = []) : totalLen stocks = 0 := by
  induction stocks with
  | nil => rfl
  | cons s rest ih =>
      rw [totalLen_cons, h s (List.mem_cons_self _ _), ih
        (fun t ht => h t (List.mem_cons_of_mem _ ht))]
      rfl

/-- Unfolding lemma for one iteration of the filling loop. -/
theorem fillGroup_succ (limit fuel : Nat) (stocks : List (List Rec))
    (bundle : List Rec) :
    fillGroup limit (fuel + 1) stocks bundle
      = if bundle.length < limit then
          (if (roundStep limit stocks bundle false).2.2 = true then
            fillGroup limit fuel (roundStep limit stocks bundle false).1
              (roundStep limit stocks bundle false).2.1
          else ((roundStep limit stocks bundle false).1,
            (roundStep limit stocks bundle false).2.1))
        else (stocks, bundle) := rfl

/-- The group-filling loop: with enough fuel it fills the bundle to
min(limit, everything available) and conserves records. -/
theorem fillGroup_spec (limit : Nat) :
    ∀ (fuel : Nat) (stocks : List (List Rec)) (bundle : List Rec),
      bundle.length ≤ limit → totalLen stocks < fuel →
      (fillGroup limit fuel stocks bundle).2.length
          = min limit (bundle.length + totalLen stocks)
      ∧ (fillGroup limit fuel stocks bundle).2.length
            + totalLen (fillGroup limit fuel stocks bundle).1
          = bundle.length + totalLen stocks := by
  intro fuel
  induction fuel with
  | zero => intro stocks bundle _ hf; omega
  | succ fuel ih =>
      intro stocks bundle hb hf
      rw [fillGroup_succ]
      by_cases hlt : bundle.length < limit
      · rw [if_pos hlt]
        cases hm : (roundStep limit stocks bundle false).2.2 with
        | false =>
            rw [if_neg Bool.false_ne_true]
            obtain ⟨h1, h2, h3⟩ := roundStep_no_move limit stocks bundle hm
            have hz : totalLen stocks = 0 := totalLen_all_nil (h3 hlt)
            show (roundStep limit stocks bundle false).2.1.length = _
              ∧ (roundStep limit stocks bundle false).2.1.length
                  + totalLen (roundStep limit stocks bundle false).1 = _
            rw [h1, h2, hz]
            omega
        | true =>
            rw [if_pos rfl]
            have hcons := roundStep_conserve limit stocks bundle false
            have hmono := roundStep_bundle_le limit stocks bundle false hb
            have hprog := roundStep_progress limit stocks bundle hm
            have hf' : totalLen (roundStep limit stocks bundle false).1 < fuel := by
              omega
            obtain ⟨ha, hc⟩ := ih (roundStep limit stocks bundle false).1
              (roundStep limit stocks bundle false).2.1 hmono hf'
            constructor
            · rw [ha]
              omega
            · omega
      · rw [if_neg hlt]
        show bundle.length = min limit (bundle.length + totalLen stocks)
          ∧ bundle.length + totalLen stocks = bundle.length + totalLen stocks
        omega

/-- Filling the groups in sequence: when the stocks hold at least the sum of
the targets, every group is filled exactly to its target. -/
theorem allocGroups_lengths :
    ∀ (targets : List Nat) (stocks : List (List Rec)),
      targets.sum ≤ totalLen stocks →
      (allocGroups stocks targets).map List.length = targets := by
  intro targets
  induction targets with
  | nil => intro stocks _; rfl
  | cons limit rest ih =>
      intro stocks hsum
      rw [List.sum_cons] at hsum
      simp only [allocGroups]
      obtain ⟨ha, hc⟩ := fillGroup_spec limit (totalLen stocks + 1) stocks []
        (by simp) (Nat.lt_succ_self _)
      rw [List.map_cons]
      have hlen : (fillGroup limit (totalLen stocks + 1) stocks []).2.length
          = limit := by
        rw [ha]
        simp only [List.length_nil, Nat.zero_add]
        omega
      rw [hlen]
      congr 1
      apply ih
      simp only [List.length_nil, Nat.zero_add] at hc
      omega

theorem allocGroups_length :
    ∀ (targets : List Nat) (stocks : List (List Rec)),
      (allocGroups stocks targets).length = targets.length := by
  intro targets
  induction targets with
  | nil => intro stocks; rfl
  | cons limit rest ih =>
      intro stocks
      simp only [allocGroups, List.length_cons, ih]

/-! ### Target sizes -/

theorem targetsOf_length (size N : Nat) : (targetsOf size N).length = N := by
  simp [targetsOf]

theorem targetsOf_getD (size N i : Nat) (h : i < N) :
    (targetsOf size N).getD i 0
      = size / N + if i < size % N then 1 else 0 := by
  rw [targetsOf, List.getD_eq_getElem _ _ (by simp [h]), List.getElem_map,
    List.getElem_range]

theorem sum_map_range_ite (base r : Nat) :
    ∀ m : Nat,
      ((List.range m).map (fun i => base + if i < r then 1 else 0)).sum
        = m * base + min m r := by
  intro m
  induction m with
  | zero => simp
  | succ m ih =>
      rw [List.range_succ, List.map_append, List.sum_append]
      simp only [List.map_cons, List.map_nil, List.sum_cons, List.sum_nil]
      rw [ih]
      by_cases h : m < r
      · rw [if_pos h]
        have hmin : min (m + 1) r = min m r + 1 := by omega
        rw [hmin, Nat.succ_mul]
        omega
      · rw [if_neg h]
        have hmin : min (m + 1) r = min m r := by omega
        rw [hmin, Nat.succ_mul]
        omega

/-- The per-group targets always sum to the total record count. -/
theorem targetsOf_sum (size N : Nat) (h : 1 ≤ N) :
    (targetsOf size N).sum = size := by
  rw [targetsOf, sum_map_range_ite]
  have hmod : size % N < N := Nat.mod_lt _ (by omega)
  have hmin : min N (size % N) = size % N := by omega
  rw [hmin]
  exact Nat.div_add_mod size N

/-! ### Branch-wise allocator: main facts -/

/-- Every group of the branch-wise allocator reaches exactly its target
size: the early-exit can only trigger once all stocks are empty, and the
targets sum to the total stock, so no group ever stops short. -/
theorem branchwise_map_length (records : List Rec) (N : Nat) (h : 1 ≤ N) :
    (branchwise_allocation records N).map List.length
      = targetsOf records.length N := by
  rw [branchwise_allocation]
  apply allocGroups_lengths
  rw [targetsOf_sum _ _ h, totalLen_stocks]

theorem branchwise_length (records : List Rec) (N : Nat) :
    (branchwise_allocation records N).length = N := by
  rw [branchwise_allocation, allocGroups_length, targetsOf_length]

theorem branchwise_getD_length (records : List Rec) (N i : Nat) (h : 1 ≤ N)
    (hi : i < N) :
    ((branchwise_allocation records N).getD i []).length
      = records.length / N + if i < records.length % N then 1 else 0 := by
  have hlen : (branchwise_allocation records N).length = N :=
    branchwise_length records N
  have h1 : ((branchwise_allocation records N).map List.length).getD i 0
      = (targetsOf records.length N).getD i 0 := by
    rw [branchwise_map_length records N h]
  rw [List.getD_eq_getElem _ _ (by simp [hlen, hi]), List.getElem_map] at h1
  rw [List.getD_eq_getElem _ _ (by rw [hlen]; exact hi), h1,
    targetsOf_getD _ _ _ hi]

/-! ### Uniform allocator: chunking -/

/-- Chunking conserves the rows: chunks then tail reassemble the input. -/
theorem splitChunksF_flatten (p : Nat) :
    ∀ (fuel : Nat) (l : List Rec),
      (splitChunksF p fuel l).1.flatten ++ (splitChunksF p fuel l).2 = l := by
  intro fuel
  induction fuel with
  | zero => intro l; rfl
  | succ fuel ih =>
      intro l
      simp only [splitChunksF]
      split
      · rename_i hg
        show (l.take p :: (splitChunksF p fuel (l.drop p)).1).flatten
            ++ (splitChunksF p fuel (l.drop p)).2 = l
        rw [List.flatten_cons, List.append_assoc, ih (l.drop p),
          List.take_append_drop]
      · rfl

theorem splitChunks_flatten (p : Nat) (l : List Rec) :
    (splitChunks p l).1.flatten ++ (splitChunks p l).2 = l :=
  splitChunksF_flatten p l.length l

/-- Every chunk has exactly p records. -/
theorem splitChunksF_chunk_length (p : Nat) :
    ∀ (fuel : Nat) (l : List Rec) (b : List Rec),
      b ∈ (splitChunksF p fuel l).1 → b.length = p := by
  intro fuel
  induction fuel with
  | zero => intro l b hb; cases hb
  | succ fuel ih =>
      intro l b hb
      simp only [splitChunksF] at hb
      split at hb
      · rename_i hg
        rcases List.mem_cons.mp hb with rfl | hb
        · rw [List.length_take]
          omega
        · exact ih (l.drop p) b hb
      · cases hb

theorem splitChunks_chunk_length (p : Nat) (l : List Rec) (b : List Rec)
    (hb : b ∈ (splitChunks p l).1) : b.length = p :=
  splitChunksF_chunk_length p l.length l b hb

/-- With p ≥ 1 and enough fuel, the remaining tail is shorter than p. -/
theorem splitChunksF_tail_lt (p : Nat) (hp : 0 < p) :
    ∀ (fuel : Nat) (l : List Rec), l.length ≤ fuel →
      (splitChunksF p fuel l).2.length < p := by
  intro fuel
  induction fuel with
  | zero => intro l hl; simp only [splitChunksF]; omega
  | succ fuel ih =>
      intro l hl
      simp only [splitChunksF]
      split
      · rename_i hg
        refine ih (l.drop p) ?_
        rw [List.length_drop]
        omega
      · rename_i hg
        show l.length < p
        rw [not_and_or] at hg
        rcases hg with hg | hg
        · omega
        · omega

theorem splitChunks_tail_lt (p : Nat) (hp : 0 < p) (l : List Rec) :
    (splitChunks p l).2.length < p :=
  splitChunksF_tail_lt p hp l.length l (Nat.le_refl _)

theorem perm_append_swap (a b c d : List α) :
    ((a ++ b) ++ (c ++ d)).Perm ((a ++ c) ++ (b ++ d)) := by
  rw [List.append_assoc, List.append_assoc]
  apply List.Perm.append_left
  rw [← List.append_assoc, ← List.append_assoc]
  exact List.Perm.append_right d List.perm_append_comm

theorem ite_nil_flatten (l : List Rec) :
    (if l.isEmpty then ([] : List (List Rec)) else [l]).flatten = l := by
  cases l <;> simp

/-- The chunk phase conserves all records, as a permutation. -/
theorem chunkPhase_flatten_perm (p : Nat) :
    ∀ parts : List (List Rec),
      ((chunkPhase p parts).1.flatten
        ++ (chunkPhase p parts).2.flatten).Perm parts.flatten := by
  intro parts
  induction parts with
  | nil => exact List.Perm.refl _
  | cons rows rest ih =>
      show (((splitChunks p rows).1 ++ (chunkPhase p rest).1).flatten
          ++ ((if (splitChunks p rows).2.isEmpty then []
                else [(splitChunks p rows).2]) ++ (chunkPhase p rest).2).flatten).Perm
        (rows :: rest).flatten
      rw [List.flatten_append, List.flatten_append, List.flatten_cons]
      refine (perm_append_swap _ _ _ _).trans ?_
      rw [ite_nil_flatten, splitChunks_flatten]
      exact List.Perm.append_left rows ih

theorem chunkPhase_chunk_length (p : Nat) :
    ∀ (parts : List (List Rec)) (b : List Rec),
      b ∈ (chunkPhase p parts).1 → b.length = p := by
  intro parts
  induction parts with
  | nil => intro b hb; cases hb
  | cons rows rest ih =>
      intro b hb
      have hb' : b ∈ (splitChunks p rows).1 ++ (chunkPhase p rest).1 := hb
      rcases List.mem_append.mp hb' with h | h
      · exact splitChunks_chunk_length p rows b h
      · exact ih b h

theorem chunkPhase_leftover (p : Nat) (hp : 0 < p) :
    ∀ (parts : List (List Rec)) (b : List Rec),
      b ∈ (chunkPhase p parts).2 → b.length < p ∧ b ≠ [] := by
  intro parts
  induction parts with
  | nil => intro b hb; cases hb
  | cons rows rest ih =>
      intro b hb
      have hb' : b ∈ (if (splitChunks p rows).2.isEmpty then []
          else [(splitChunks p rows).2]) ++ (chunkPhase p rest).2 := hb
      rcases List.mem_append.mp hb' with h | h
      · by_cases he : (splitChunks p rows).2.isEmpty
        · rw [if_pos he] at h
          cases h
        · rw [if_neg he] at h
          rcases List.mem_singleton.mp h with rfl
          refine ⟨splitChunks_tail_lt p hp rows, ?_⟩
          intro hnil
          rw [hnil] at he
          exact he rfl
      · exact ih b h

/-! ### Uniform allocator: the merge phase -/

/-- Filling a group from the deque conserves all records, in order. -/
theorem fillFrom_flatten :
    ∀ (q : List (List Rec)) (remain : Nat) (group : List Rec),
      (fillFrom remain group q).1 ++ (fillFrom remain group q).2.flatten
        = group ++ q.flatten := by
  intro q
  induction q with
  | nil => intro remain group; simp [fillFrom]
  | cons cand rest ih =>
      intro remain group
      simp only [fillFrom]
      split
      · rfl
      · split
        · rw [ih (remain - cand.length) (group ++ cand), List.append_assoc,
            List.flatten_cons]
        · show (group ++ cand.take remain) ++ (cand.drop remain :: rest).flatten
              = group ++ (cand :: rest).flatten
          rw [List.flatten_cons, List.flatten_cons, List.append_assoc,
            ← List.append_assoc (cand.take remain), List.take_append_drop]

/-- Invariants of the inner merge loop: the group never exceeds the pack
size, the group only grows, the queue keeps holding non-empty blocks of at
most pack size, and if blocks remain the group was filled to exactly the
pack size. -/
theorem fillFrom_invariant (p : Nat) :
    ∀ (q : List (List Rec)) (remain : Nat) (group : List Rec),
      group.length + remain = p →
      (∀ b ∈ q, b.length ≤ p ∧ b ≠ []) →
      (fillFrom remain group q).1.length ≤ p
      ∧ group.length ≤ (fillFrom remain group q).1.length
      ∧ (∀ b ∈ (fillFrom remain group q).2, b.length ≤ p ∧ b ≠ [])
      ∧ ((fillFrom remain group q).2 ≠ [] →
          (fillFrom remain group q).1.length = p) := by
  intro q
  induction q with
  | nil =>
      intro remain group hg hq
      simp only [fillFrom]
      refine ⟨?_, ?_, ?_, ?_⟩
      · show group.length ≤ p
        omega
      · show group.length ≤ group.length
        exact Nat.le_refl _
      · intro b hb
        cases hb
      · intro hne
        exact absurd rfl hne
  | cons cand rest ih =>
      intro remain group hg hq
      have hcand := hq cand (List.mem_cons_self _ _)
      have hrest : ∀ b ∈ rest, b.length ≤ p ∧ b ≠ [] :=
        fun b hb => hq b (List.mem_cons_of_mem _ hb)
      simp only [fillFrom]
      split
      · rename_i h0
        refine ⟨?_, ?_, ?_, ?_⟩
        · show group.length ≤ p
          omega
        · show group.length ≤ group.length
          exact Nat.le_refl _
        · show ∀ b ∈ cand :: rest, b.length ≤ p ∧ b ≠ []
          exact hq
        · intro _
          show group.length = p
          omega
      · rename_i h0
        split
        · rename_i hfit
          have hg' : (group ++ cand).length + (remain - cand.length) = p := by
            rw [List.length_append]
            omega
          obtain ⟨h1, h2, h3, h4⟩ := ih (remain - cand.length)
            (group ++ cand) hg' hrest
          refine ⟨h1, ?_, h3, h4⟩
          refine Nat.le_trans ?_ h2
          simp
        · rename_i hbig
          have htake : (cand.take remain).length = remain := by
            rw [List.length_take]
            omega
          have hdrop : (cand.drop remain).length = cand.length - remain := by
            rw [List.length_drop]
          refine ⟨?_, ?_, ?_, ?_⟩
          · show (group ++ cand.take remain).length ≤ p
            rw [List.length_append, htake]
            omega
          · show group.length ≤ (group ++ cand.take remain).length
            simp
          · show ∀ b ∈ cand.drop remain :: rest, b.length ≤ p ∧ b ≠ []
            intro b hb
            rcases List.mem_cons.mp hb with rfl | hb
            · constructor
              · rw [hdrop]; omega
              · intro hnil
                have := congrArg List.length hnil
                rw [hdrop] at this
                simp at this
                omega
            · exact hrest b hb
          · intro _
            show (group ++ cand.take remain).length = p
            rw [List.length_append, htake]
            omega

/-- The merge loop conserves all records, in deque order. -/
theorem mergeLoopF_flatten (p : Nat) :
    ∀ (fuel : Nat) (q : List (List Rec)), q.length ≤ fuel →
      (mergeLoopF p fuel q).flatten = q.flatten := by
  intro fuel
  induction fuel with
  | zero =>
      intro q hq
      have hq0 : q = [] := List.length_eq_zero.mp (Nat.le_zero.mp hq)
      subst hq0
      rfl
  | succ fuel ih =>
      intro q hq
      cases q with
      | nil => rfl
      | cons block rest =>
          show ((fillFrom (p - block.length) block rest).1 ::
            mergeLoopF p fuel (fillFrom (p - block.length) block rest).2).flatten
            = (block :: rest).flatten
          rw [List.flatten_cons, List.flatten_cons]
          have hlen : (fillFrom (p - block.length) block rest).2.length ≤ fuel :=
            Nat.le_trans (fillFrom_queue_length _ _ _) (by
              simp only [List.length_cons] at hq
              omega)
          rw [ih _ hlen, fillFrom_flatten]

theorem mergeLoop_flatten (p : Nat) (q : List (List Rec)) :
    (mergeLoop p q).flatten = q.flatten :=
  mergeLoopF_flatten p q.length q (Nat.le_refl _)

/-- Structure of the merged groups: every group is non-empty and at most
the pack size, every group except possibly the last is exactly the pack
size, and the loop produces no groups only from an empty deque. -/
theorem mergeLoopF_facts (p : Nat) :
    ∀ (fuel : Nat) (q : List (List Rec)), q.length ≤ fuel →
      (∀ b ∈ q, b.length ≤ p ∧ b ≠ []) →
      (∀ g ∈ mergeLoopF p fuel q, g.length ≤ p ∧ g ≠ [])
      ∧ (∀ i, i + 1 < (mergeLoopF p fuel q).length →
          ((mergeLoopF p fuel q).getD i []).length = p)
      ∧ (mergeLoopF p fuel q = [] ↔ q = []) := by
  intro fuel
  induction fuel with
  | zero =>
      intro q hq _
      have hq0 : q = [] := List.length_eq_zero.mp (Nat.le_zero.mp hq)
      subst hq0
      have h0 : mergeLoopF p 0 ([] : List (List Rec)) = [] := rfl
      rw [h0]
      exact ⟨(fun g hg => by cases hg), (fun i hi => by simp at hi), by simp⟩
  | succ fuel ih =>
      intro q hq hblocks
      cases q with
      | nil =>
          have h0 : mergeLoopF p (fuel + 1) ([] : List (List Rec)) = [] := rfl
          rw [h0]
          exact ⟨(fun g hg => by cases hg), (fun i hi => by simp at hi), by simp⟩
      | cons block rest =>
          have hblock := hblocks block (List.mem_cons_self _ _)
          have hrest : ∀ b ∈ rest, b.length ≤ p ∧ b ≠ [] :=
            fun b hb => hblocks b (List.mem_cons_of_mem _ hb)
          have hginv : block.length + (p - block.length) = p := by
            have := hblock.1
            omega
          obtain ⟨hle, hmono, hq', hfull⟩ :=
            fillFrom_invariant p rest (p - block.length) block hginv hrest
          have hlen : (fillFrom (p - block.length) block rest).2.length ≤ fuel :=
            Nat.le_trans (fillFrom_queue_length _ _ _) (by
              simp only [List.length_cons] at hq
              omega)
          obtain ⟨ih1, ih2, ih3⟩ := ih _ hlen hq'
          have hshow : mergeLoopF p (fuel + 1) (block :: rest)
              = (fillFrom (p - block.length) block rest).1 ::
                mergeLoopF p fuel (fillFrom (p - block.length) block rest).2 := rfl
          rw [hshow]
          refine ⟨?_, ?_, by simp⟩
          · intro g hg
            rcases List.mem_cons.mp hg with rfl | hg
            · refine ⟨hle, ?_⟩
              intro hnil
              have hb1 : 0 < block.length :=
                List.length_pos.mpr hblock.2
              have hlen0 : (fillFrom (p - block.length) block rest).1.length
                  = 0 := by
                rw [hnil]
                rfl
              omega
            · exact ih1 g hg
          · intro i hi
            cases i with
            | zero =>
                rw [List.getD_cons_zero]
                apply hfull
                intro hq2
                rw [List.length_cons, (ih3.mpr hq2 : _ = _)] at hi
                simp at hi
            | succ i =>
                rw [List.getD_cons_succ]
                apply ih2
                rw [List.length_cons] at hi
                omega

theorem mergeLoop_facts (p : Nat) (q : List (List Rec))
    (hblocks : ∀ b ∈ q, b.length ≤ p ∧ b ≠ []) :
    (∀ g ∈ mergeLoop p q, g.length ≤ p ∧ g ≠ [])
    ∧ (∀ i, i + 1 < (mergeLoop p q).length →
        ((mergeLoop p q).getD i []).length = p)
    ∧ (mergeLoop p q = [] ↔ q = []) :=
  mergeLoopF_facts p q.length q (Nat.le_refl _) hblocks

/-! ### Uniform allocator: assembly -/

theorem packSize_pos (S N : Nat) (hS : 1 ≤ S) (hN : 1 ≤ N) :
    1 ≤ packSize S N := by
  rw [packSize]
  refine (Nat.le_div_iff_mul_le (by omega)).mpr ?_
  omega

theorem packSize_mul_ge (S N : Nat) (hN : 1 ≤ N) : S ≤ N * packSize S N := by
  rw [packSize]
  have hdm := Nat.div_add_mod (S + N - 1) N
  have hmod : (S + N - 1) % N < N := Nat.mod_lt _ (by omega)
  omega

theorem sorted_codes_nodup (records : List Rec) : (sorted_codes records).Nodup :=
  ((sortBy_perm _ _).nodup_iff).mpr (uniqueKeepOrder_nodup _)

theorem mem_sorted_codes {records : List Rec} {c : String} :
    c ∈ sorted_codes records ↔ c ∈ recordBranches records :=
  ((sortBy_perm _ _).mem_iff).trans mem_active_codes

theorem partitionsOf_flatten_perm (records : List Rec) :
    ((partitionsOf records).flatten).Perm records := by
  rw [partitionsOf]
  exact flatten_stocks_perm _ records (sorted_codes_nodup records)
    (fun r hr => mem_sorted_codes.mpr (List.mem_map_of_mem _ hr))

theorem leftoversOf_perm (records : List Rec) (N : Nat) :
    (leftoversOf records N).Perm
      (chunkPhase (packSize records.length N) (partitionsOf records)).2 :=
  sortBy_perm _ _

/-- Before padding, the uniform bundles hold exactly the input records. -/
theorem uniform_bundles_flatten_perm (records : List Rec) (N : Nat) :
    (((chunkPhase (packSize records.length N) (partitionsOf records)).1
        ++ mergeLoop (packSize records.length N)
          (leftoversOf records N)).flatten).Perm records := by
  rw [List.flatten_append, mergeLoop_flatten]
  refine List.Perm.trans ?_
    ((chunkPhase_flatten_perm (packSize records.length N)
      (partitionsOf records)).trans (partitionsOf_flatten_perm records))
  exact List.Perm.append_left _ ((leftoversOf_perm records N).flatten)

theorem padTo_flatten (n : Nat) (l : List (List Rec)) :
    (padTo n l).flatten = l.flatten := by
  rw [padTo, List.flatten_append, flatten_replicate_nil, List.append_nil]

theorem uniform_flatten_perm (records : List Rec) (N : Nat) :
    ((uniform_allocation records N).flatten).Perm records := by
  rw [uniform_allocation, padTo_flatten]
  exact uniform_bundles_flatten_perm records N

theorem leftoversOf_blocks (records : List Rec) (N : Nat) (hN : 1 ≤ N) :
    ∀ b ∈ leftoversOf records N,
      b.length ≤ packSize records.length N ∧ b ≠ [] := by
  intro b hb
  cases records with
  | nil =>
      have h0 : leftoversOf [] N = [] := rfl
      rw [h0] at hb
      cases hb
  | cons r rs =>
      have hp : 0 < packSize (r :: rs).length N :=
        packSize_pos _ _ (by simp) hN
      have hb' := ((leftoversOf_perm (r :: rs) N).mem_iff).mp hb
      obtain ⟨h1, h2⟩ := chunkPhase_leftover _ hp _ b hb'
      exact ⟨Nat.le_of_lt h1, h2⟩

theorem flatten_length_of_all_eq (p : Nat) :
    ∀ L : List (List Rec), (∀ b ∈ L, b.length = p) →
      L.flatten.length = p * L.length := by
  intro L
  induction L with
  | nil => intro _; simp
  | cons g rest ih =>
      intro h
      rw [List.flatten_cons, List.length_append, h g (List.mem_cons_self _ _),
        ih (fun b hb => h b (List.mem_cons_of_mem _ hb)), List.length_cons,
        Nat.mul_succ]
      omega

/-- A list of non-empty groups, all of pack size except possibly the last,
holds at least p·(count−1)+1 records. -/
theorem flatten_length_lower (p : Nat) :
    ∀ L : List (List Rec),
      (∀ g ∈ L, g ≠ []) →
      (∀ i, i + 1 < L.length → (L.getD i []).length = p) →
      L ≠ [] → p * L.length + 1 ≤ L.flatten.length + p := by
  intro L
  induction L with
  | nil => intro _ _ hne; exact absurd rfl hne
  | cons g rest ih =>
      intro hne hmid _
      cases rest with
      | nil =>
          have h1 : 1 ≤ g.length :=
            List.length_pos.mpr (hne g (List.mem_cons_self _ _))
          simp only [List.flatten_cons, List.flatten_nil, List.length_cons,
            List.length_nil, List.append_nil]
          omega
      | cons g2 rest2 =>
          have hglen : g.length = p := by
            have h0 := hmid 0 (by simp only [List.length_cons]; omega)
            simpa using h0
          have ihh := ih (fun x hx => hne x (List.mem_cons_of_mem _ hx))
            (fun i hi => by
              have h0 := hmid (i + 1)
                (by simp only [List.length_cons] at hi ⊢; omega)
              simpa [List.getD_cons_succ] using h0)
            (by simp)
          rw [List.flatten_cons, List.length_append, List.length_cons,
            Nat.mul_succ, hglen]
          omega

/-- The uniform allocator never creates more than N groups before padding. -/
theorem uniform_bundle_count (records : List Rec) (N : Nat) (hN : 1 ≤ N) :
    (chunkPhase (packSize records.length N) (partitionsOf records)).1.length
      + (mergeLoop (packSize records.length N)
          (leftoversOf records N)).length ≤ N := by
  cases records with
  | nil =>
      show (0 : Nat) + 0 ≤ N
      omega
  | cons r rs =>
      have hS : 1 ≤ (r :: rs).length := by simp
      have hp : 0 < packSize (r :: rs).length N := packSize_pos _ _ hS hN
      have hperm := uniform_bundles_flatten_perm (r :: rs) N
      have htot := hperm.length_eq
      rw [List.flatten_append, List.length_append] at htot
      have hK : (chunkPhase (packSize (r :: rs).length N)
          (partitionsOf (r :: rs))).1.flatten.length
          = packSize (r :: rs).length N
            * (chunkPhase (packSize (r :: rs).length N)
                (partitionsOf (r :: rs))).1.length :=
        flatten_length_of_all_eq _ _ (chunkPhase_chunk_length _ _)
      have hSle := packSize_mul_ge (r :: rs).length N hN
      rw [Nat.mul_comm] at hSle
      by_cases hM : mergeLoop (packSize (r :: rs).length N)
          (leftoversOf (r :: rs) N) = []
      · rw [hM] at htot
        simp only [List.flatten_nil, List.length_nil, List.length_append] at htot
        rw [hM]
        simp only [List.length_nil, Nat.add_zero]
        refine Nat.le_of_mul_le_mul_left ?_ hp
        omega
      · obtain ⟨hfact1, hfact2, _⟩ := mergeLoop_facts _ _
          (leftoversOf_blocks (r :: rs) N hN)
        have hlow := flatten_length_lower _ _
          (fun g hg => (hfact1 g hg).2) hfact2 hM
        have hmul : packSize (r :: rs).length N
            * ((chunkPhase (packSize (r :: rs).length N)
                (partitionsOf (r :: rs))).1.length
              + (mergeLoop (packSize (r :: rs).length N)
                  (leftoversOf (r :: rs) N)).length)
            < packSize (r :: rs).length N * (N + 1) := by
          rw [Nat.mul_add, Nat.mul_succ]
          omega
        have := Nat.lt_of_mul_lt_mul_left hmul
        omega

theorem uniform_length (records : List Rec) (N : Nat) (hN : 1 ≤ N) :
    (uniform_allocation records N).length = N := by
  have hcount := uniform_bundle_count records N hN
  rw [uniform_allocation, padTo, List.length_append, List.length_replicate,
    List.length_append]
  omega

/-! ### The branch extractor -/

theorem upperPair_cons {a : Char} {l : List Char} {i : Nat} :
    upperPair (a :: l) (i + 1) ↔ upperPair l i := by
  simp only [upperPair, List.getD_cons_succ, List.length_cons]
  constructor
  · rintro ⟨h1, h2, h3⟩
    exact ⟨by omega, h2, h3⟩
  · rintro ⟨h1, h2, h3⟩
    exact ⟨by omega, h2, h3⟩

theorem upperPair_zero {a b : Char} {l : List Char} :
    upperPair (a :: b :: l) 0 ↔ (isUpper a = true ∧ isUpper b = true) := by
  simp only [upperPair, List.length_cons, List.getD_cons_zero,
    List.getD_cons_succ]
  constructor
  · rintro ⟨_, h2, h3⟩
    exact ⟨h2, h3⟩
  · rintro ⟨h2, h3⟩
    exact ⟨by omega, h2, h3⟩

theorem findTwoUpper_eq_none :
    ∀ l : List Char, (∀ i, ¬ upperPair l i) → findTwoUpper l = none := by
  intro l
  induction l with
  | nil => intro _; rfl
  | cons a tail ih =>
      intro h
      cases tail with
      | nil => rfl
      | cons b rest =>
          have h0 : ¬ (isUpper a = true ∧ isUpper b = true) :=
            fun hab => h 0 (upperPair_zero.mpr hab)
          have hguard : (isUpper a && isUpper b) = false := by
            cases ha : isUpper a <;> cases hb : isUpper b <;> simp_all
          show (if isUpper a && isUpper b then some (a, b)
            else findTwoUpper (b :: rest)) = none
          rw [hguard]
          simp only [Bool.false_eq_true, if_false]
          exact ih (fun i hp => h (i + 1) (upperPair_cons.mpr hp))

theorem findTwoUpper_eq_some :
    ∀ (l : List Char) (i : Nat), upperPair l i →
      (∀ j, j < i → ¬ upperPair l j) →
      findTwoUpper l = some (l.getD i 'a', l.getD (i + 1) 'a') := by
  intro l
  induction l with
  | nil =>
      intro i hi _
      exact absurd hi.1 (by simp)
  | cons a tail ih =>
      intro i hi hmin
      cases tail with
      | nil =>
          exact absurd hi.1 (by simp)
      | cons b rest =>
          cases i with
          | zero =>
              obtain ⟨ha, hb⟩ := upperPair_zero.mp hi
              show (if isUpper a && isUpper b then some (a, b)
                else findTwoUpper (b :: rest)) = _
              rw [ha, hb]
              rfl
          | succ i =>
              have h0 : ¬ (isUpper a = true ∧ isUpper b = true) :=
                fun hab => hmin 0 (Nat.succ_pos _) (upperPair_zero.mpr hab)
              have hguard : (isUpper a && isUpper b) = false := by
                cases ha : isUpper a <;> cases hb : isUpper b <;> simp_all
              show (if isUpper a && isUpper b then some (a, b)
                else findTwoUpper (b :: rest)) = _
              rw [hguard]
              simp only [Bool.false_eq_true, if_false, List.getD_cons_succ]
              exact ih i (upperPair_cons.mp hi)
                (fun j hj hp => hmin (j + 1) (Nat.succ_lt_succ hj)
                  (upperPair_cons.mpr hp))

theorem getD_pair_eq_take_drop (l : List Char) (i : Nat) (h : i + 1 < l.length) :
    [l.getD i 'a', l.getD (i + 1) 'a'] = (l.drop i).take 2 := by
  have h1 : i < l.length := by omega
  rw [List.getD_eq_getElem _ _ h1, List.getD_eq_getElem _ _ h,
    List.drop_eq_getElem_cons h1, List.drop_eq_getElem_cons h]
  rfl

/-! ### The summary compiler -/

theorem summaryCodes_nodup (bundles : List (List Rec)) :
    (summaryCodes bundles).Nodup :=
  ((sortBy_perm _ _).nodup_iff).mpr (uniqueKeepOrder_nodup _)

theorem mem_summaryCodes {bundles : List (List Rec)} {c : String} :
    c ∈ summaryCodes bundles ↔ c ∈ recordBranches bundles.flatten :=
  ((sortBy_perm _ _).mem_iff).trans mem_uniqueKeepOrder

/-- The per-branch counts over a duplicate-free covering code list sum to
the number of records. -/
theorem sum_counts_eq_length (codes : List String) (pack : List Rec)
    (hnd : codes.Nodup) (hcov : ∀ r ∈ pack, r.branch ∈ codes) :
    (codes.map
      (fun c => (pack.filter (fun r => decide (r.branch = c))).length)).sum
      = pack.length := by
  have hperm := (flatten_stocks_perm codes pack hnd hcov).length_eq
  rw [List.length_flatten, List.map_map] at hperm
  exact hperm

/-- Summing one branch's count over the bundles counts it in the flattened
records. -/
theorem sum_counts_flatten (c : String) :
    ∀ bundles : List (List Rec),
      (bundles.map
        (fun b => (b.filter (fun r => decide (r.branch = c))).length)).sum
        = (bundles.flatten.filter (fun r => decide (r.branch = c))).length := by
  intro bundles
  induction bundles with
  | nil => rfl
  | cons b rest ih =>
      rw [List.map_cons, List.sum_cons, List.flatten_cons, List.filter_append,
        List.length_append, ih]

theorem compile_summary_row (bundles : List (List Rec)) (N i : Nat)
    (hi : i < N) :
    (compile_summary bundles N).getD i []
      = summaryRow (summaryCodes bundles) (bundles.getD i []) := by
  rw [compile_summary, List.getD_eq_getElem _ _ (by simp [hi]),
    List.getElem_map, List.getElem_range]

theorem summaryRow_length (codes : List String) (pack : List Rec) :
    (summaryRow codes pack).length = codes.length + 1 := by
  rw [summaryRow, List.length_append, List.length_map, List.length_cons]
  rfl

theorem summaryRow_getD_lt (codes : List String) (pack : List Rec) (j : Nat)
    (hj : j < codes.length) :
    (summaryRow codes pack).getD j 0
      = (pack.filter (fun r => decide (r.branch = codes.getD j ""))).length := by
  have hj2 : j < (summaryRow codes pack).length := by
    rw [summaryRow_length]
    omega
  rw [summaryRow] at hj2 ⊢
  rw [List.getD_eq_getElem _ _ hj2,
    List.getElem_append_left (by rw [List.length_map]; exact hj),
    List.getElem_map, List.getD_eq_getElem _ _ hj]

theorem summaryRow_getD_last (codes : List String) (pack : List Rec) :
    (summaryRow codes pack).getD codes.length 0 = pack.length := by
  have hj2 : codes.length < (summaryRow codes pack).length := by
    rw [summaryRow_length]
    omega
  rw [summaryRow] at hj2 ⊢
  rw [List.getD_eq_getElem _ _ hj2,
    List.getElem_append_right (by rw [List.length_map])]
  simp

theorem compile_summary_length (bundles : List (List Rec)) (N : Nat) :
    (compile_summary bundles N).length = N := by
  rw [compile_summary, List.length_map, List.length_range]

/-! ### Unfolding the merge loop one group at a time -/

theorem mergeLoopF_nil (p fuel : Nat) : mergeLoopF p fuel [] = [] := by
  cases fuel <;> rfl

theorem mergeLoopF_fuel (p : Nat) :
    ∀ (fuel fuel' : Nat) (q : List (List Rec)),
      q.length ≤ fuel → q.length ≤ fuel' →
      mergeLoopF p fuel q = mergeLoopF p fuel' q := by
  intro fuel
  induction fuel with
  | zero =>
      intro fuel' q hq _
      have hq0 : q = [] := List.length_eq_zero.mp (Nat.le_zero.mp hq)
      subst hq0
      rw [mergeLoopF_nil, mergeLoopF_nil]
  | succ fuel ih =>
      intro fuel' q hq hq'
      cases q with
      | nil => rw [mergeLoopF_nil, mergeLoopF_nil]
      | cons block rest =>
          cases fuel' with
          | zero =>
              rw [List.length_cons] at hq'
              omega
          | succ fuel' =>
              have hstep : mergeLoopF p (fuel + 1) (block :: rest)
                  = (fillFrom (p - block.length) block rest).1 ::
                    mergeLoopF p fuel
                      (fillFrom (p - block.length) block rest).2 := rfl
              have hstep' : mergeLoopF p (fuel' + 1) (block :: rest)
                  = (fillFrom (p - block.length) block rest).1 ::
                    mergeLoopF p fuel'
                      (fillFrom (p - block.length) block rest).2 := rfl
              rw [hstep, hstep']
              congr 1
              refine ih fuel' _ ?_ ?_ <;>
                refine Nat.le_trans (fillFrom_queue_length _ _ _) ?_ <;>
                  rw [List.length_cons] at hq hq' <;> omega

/-- One step of the merge loop: the next group is seeded with the front
block of the deque, and the loop continues on the queue the filling left. -/
theorem mergeLoop_cons (p : Nat) (block : List Rec) (q : List (List Rec)) :
    mergeLoop p (block :: q)
      = (fillFrom (p - block.length) block q).1
        :: mergeLoop p (fillFrom (p - block.length) block q).2 := by
  rw [mergeLoop, List.length_cons]
  have hstep : mergeLoopF p (q.length + 1) (block :: q)
      = (fillFrom (p - block.length) block q).1 ::
        mergeLoopF p q.length (fillFrom (p - block.length) block q).2 := rfl
  rw [hstep, mergeLoop]
  congr 1
  exact mergeLoopF_fuel p q.length _ _ (fillFrom_queue_length _ _ _)
    (Nat.le_refl _)

/-- Reindexing a sum over positions as a sum over the list. -/
theorem range_map_getD_sum {α : Type} (l : List α) (d : α) (f : α → Nat) :
    ((List.range l.length).map (fun j => f (l.getD j d))).sum
      = (l.map f).sum := by
  have h1 : (List.range l.length).map (fun j => f (l.getD j d))
      = ((List.range l.length).map (fun j => l.getD j d)).map f := by
    rw [List.map_map]
    rfl
  rw [h1, map_range_getD]

/-! ### Claim theorems -/

/-- C1: for every input record list and every N ≥ 1, the Uniform Allocator
conserves records exactly: the concatenation of its output groups is a
permutation of the input (no record dropped or duplicated), so in
particular the total output record count equals the input record count. -/
theorem uniform_conserves_records (records : List Rec) (N : Nat)
    (_h : 1 ≤ N) :
    ((uniform_allocation records N).flatten).Perm records
    ∧ ((uniform_allocation records N).flatten).length = records.length :=
  ⟨uniform_flatten_perm records N, (uniform_flatten_perm records N).length_eq⟩

theorem uniform_conserves_records_witness :
    1 ≤ 2
    ∧ ((uniform_allocation sampleRecords 2).flatten).Perm sampleRecords
    ∧ ((uniform_allocation sampleRecords 2).flatten).length
        = sampleRecords.length :=
  ⟨by decide, uniform_conserves_records sampleRecords 2 (by decide)⟩

/-- C2: the Branch Extractor returns "NA" on a missing identifier;
otherwise it returns the two characters at the first position carrying an
[A-Z]{2} match (two adjacent uppercase ASCII letters) of the string form,
and "NA" when no position does; as a total function it never raises. -/
theorem branch_finder_spec :
    branch_finder none = "NA"
    ∧ (∀ s : String, (∀ i, ¬ upperPair s.data i) →
        branch_finder (some s) = "NA")
    ∧ (∀ (s : String) (i : Nat), upperPair s.data i →
        (∀ j, j < i → ¬ upperPair s.data j) →
        branch_finder (some s) = String.mk ((s.data.drop i).take 2)) := by
  refine ⟨rfl, ?_, ?_⟩
  · intro s hnone
    show (match findTwoUpper s.data with
      | some (a, b) => String.mk [a, b]
      | none => "NA") = "NA"
    rw [findTwoUpper_eq_none s.data hnone]
  · intro s i hi hmin
    show (match findTwoUpper s.data with
      | some (a, b) => String.mk [a, b]
      | none => "NA") = _
    rw [findTwoUpper_eq_some s.data i hi hmin]
    show String.mk [s.data.getD i 'a', s.data.getD (i + 1) 'a'] = _
    rw [getD_pair_eq_take_drop s.data i hi.1]

theorem branch_finder_spec_witness :
    upperPair "21CS001".data 2
    ∧ branch_finder (some "21CS001")
        = String.mk (("21CS001".data.drop 2).take 2)
    ∧ branch_finder (some "21CS001") = "CS" :=
  ⟨by decide,
    branch_finder_spec.2.2 "21CS001" 2 (by decide) (by decide),
    by decide⟩

/-- C3 (counterexample): the claim that each new merged group is seeded
with the longest remaining Leftover Block fails on cexRecords with N = 6:
the first merge splits a block of four, pushing a three-record suffix to
the front of the deque, so the second group is seeded with that
three-record block while a four-record block remains. -/
theorem merge_seed_not_longest :
    seedsLongest (packSize cexRecords.length 6) (leftoversOf cexRecords 6)
      = false := by decide

/-- C3 (amended): each new merged group is seeded with the block at the
front of the leftover deque (the longest only at the start of the merge
phase: a split's suffix is pushed back to the front and seeds the next
group even if a longer block remains); while capacity remains, the block
consumed is the next block of the deque — appended whole when it fits —
and when a block is longer than the remaining capacity, a prefix of
exactly the remaining capacity is appended (filling the group to exactly
the pack size), the suffix of length original − capacity is pushed back to
the front of the deque, and the merge for that group stops. -/
theorem merge_front_seed_split (p remain remain2 : Nat)
    (group group2 cand cand2 block : List Rec)
    (rest rest2 q : List (List Rec))
    (h1 : remain ≠ 0) (h2 : remain < cand.length)
    (h3 : remain2 ≠ 0) (h4 : cand2.length ≤ remain2) :
    mergeLoop p (block :: q)
      = (fillFrom (p - block.length) block q).1
        :: mergeLoop p (fillFrom (p - block.length) block q).2
    ∧ fillFrom remain group (cand :: rest)
        = (group ++ cand.take remain, cand.drop remain :: rest)
    ∧ (cand.take remain).length = remain
    ∧ (cand.drop remain).length = cand.length - remain
    ∧ (group.length + remain = p → (group ++ cand.take remain).length = p)
    ∧ fillFrom remain2 group2 (cand2 :: rest2)
        = fillFrom (remain2 - cand2.length) (group2 ++ cand2) rest2 := by
  refine ⟨mergeLoop_cons p block q, ?_, ?_, ?_, ?_, ?_⟩
  · simp only [fillFrom]
    rw [if_neg h1, if_neg (by omega)]
  · rw [List.length_take]
    omega
  · rw [List.length_drop]
  · intro hgp
    rw [List.length_append, List.length_take]
    omega
  · simp only [fillFrom]
    rw [if_neg h3, if_pos h4]

theorem merge_front_seed_split_witness :
    (1 ≠ 0 ∧ 1 < (mkRecs "CB" 4).length ∧ 3 ≠ 0
      ∧ (mkRecs "CE" 2).length ≤ 3)
    ∧ fillFrom 1 (mkRecs "AI" 5) [mkRecs "CB" 4, mkRecs "CE" 4]
        = (mkRecs "AI" 5 ++ (mkRecs "CB" 4).take 1,
            (mkRecs "CB" 4).drop 1 :: [mkRecs "CE" 4]) :=
  ⟨by decide,
    (merge_front_seed_split 6 1 3 (mkRecs "AI" 5) [] (mkRecs "CB" 4)
      (mkRecs "CE" 2) (mkRecs "AI" 5) [mkRecs "CE" 4] []
      [mkRecs "CB" 4, mkRecs "CE" 4]
      (by decide) (by decide) (by decide) (by decide)).2.1⟩

/-- C4: per-group targets are base = total div N, remainder = total mod N,
the first remainder groups (0-based) getting base+1 and the rest base; the
sizes of any two output groups differ by at most 1, with lower-indexed
groups receiving the extra record.  In this code every group always
reaches its target, so the "stocks never exhausted early" proviso of the
claim holds automatically. -/
theorem branchwise_quota_law (records : List Rec) (N : Nat) (h : 1 ≤ N) :
    (∀ i, i < N → ((branchwise_allocation records N).getD i []).length
        = records.length / N + if i < records.length % N then 1 else 0)
    ∧ (∀ i j, i < N → j < N →
        ((branchwise_allocation records N).getD i []).length
          ≤ ((branchwise_allocation records N).getD j []).length + 1)
    ∧ (∀ i j, i < N → j < N → i ≤ j →
        ((branchwise_allocation records N).getD j []).length
          ≤ ((branchwise_allocation records N).getD i []).length) := by
  refine ⟨fun i hi => branchwise_getD_length records N i h hi, ?_, ?_⟩
  · intro i j hi hj
    rw [branchwise_getD_length records N i h hi,
      branchwise_getD_length records N j h hj]
    by_cases h1 : i < records.length % N <;>
      by_cases h2 : j < records.length % N <;> simp [h1, h2] <;> omega
  · intro i j hi hj hij
    rw [branchwise_getD_length records N i h hi,
      branchwise_getD_length records N j h hj]
    by_cases h1 : i < records.length % N <;>
      by_cases h2 : j < records.length % N <;> simp [h1, h2] <;> omega

theorem branchwise_quota_law_witness :
    1 ≤ 2
    ∧ ((branchwise_allocation sampleRecords 2).getD 0 []).length
        = sampleRecords.length / 2
          + if 0 < sampleRecords.length % 2 then 1 else 0 :=
  ⟨by decide, (branchwise_quota_law sampleRecords 2 (by decide)).1 0
    (by decide)⟩

/-- C5: with pack size ceil(total/N), every chunk-phase group has exactly
pack size records, every merge-phase group has at most pack size records,
and hence every group of the final output has at most pack size records. -/
theorem uniform_group_sizes (records : List Rec) (N : Nat) (h : 1 ≤ N) :
    (∀ b ∈ (chunkPhase (packSize records.length N) (partitionsOf records)).1,
        b.length = packSize records.length N)
    ∧ (∀ g ∈ mergeLoop (packSize records.length N) (leftoversOf records N),
        g.length ≤ packSize records.length N)
    ∧ (∀ g ∈ uniform_allocation records N,
        g.length ≤ packSize records.length N) := by
  have hbl := leftoversOf_blocks records N h
  obtain ⟨hm, _, _⟩ := mergeLoop_facts _ _ hbl
  refine ⟨chunkPhase_chunk_length _ _, fun g hg => (hm g hg).1, ?_⟩
  intro g hg
  rw [uniform_allocation, padTo] at hg
  rcases List.mem_append.mp hg with hg | hg
  · rcases List.mem_append.mp hg with hg | hg
    · exact Nat.le_of_eq (chunkPhase_chunk_length _ _ _ hg)
    · exact (hm g hg).1
  · rw [List.eq_of_mem_replicate hg]
    exact Nat.zero_le _

theorem uniform_group_sizes_witness :
    1 ≤ 2
    ∧ ((uniform_allocation sampleRecords 2).getD 0 [])
        ∈ uniform_allocation sampleRecords 2
    ∧ ((uniform_allocation sampleRecords 2).getD 0 []).length
        ≤ packSize sampleRecords.length 2 :=
  ⟨by decide, by decide,
    (uniform_group_sizes sampleRecords 2 (by decide)).2.2
      ((uniform_allocation sampleRecords 2).getD 0 []) (by decide)⟩

/-- C6: for every input and N ≥ 1, both allocators return exactly N
groups — padded with empty groups when fewer were filled and never more
than N. -/
theorem allocators_return_N_groups (records : List Rec) (N : Nat)
    (h : 1 ≤ N) :
    (branchwise_allocation records N).length = N
    ∧ (uniform_allocation records N).length = N :=
  ⟨branchwise_length records N, uniform_length records N h⟩

theorem allocators_return_N_groups_witness :
    1 ≤ 5
    ∧ (branchwise_allocation sampleRecords 5).length = 5
    ∧ (uniform_allocation sampleRecords 5).length = 5 :=
  ⟨by decide, allocators_return_N_groups sampleRecords 5 (by decide)⟩

/-- C7: for a sequence of exactly N groups, the summary matrix has exactly
N rows; in every row the Total cell equals the group's size and equals the
sum of that row's branch-count cells; and every branch column sums over
the rows to that branch's total count across all groups. -/
theorem summary_matrix_laws (bundles : List (List Rec)) (N : Nat)
    (h : bundles.length = N) :
    (compile_summary bundles N).length = N
    ∧ (∀ i, i < N →
        entry (compile_summary bundles N) i (summaryCodes bundles).length
          = (bundles.getD i []).length)
    ∧ (∀ i, i < N →
        entry (compile_summary bundles N) i (summaryCodes bundles).length
          = ((List.range (summaryCodes bundles).length).map
              (fun j => entry (compile_summary bundles N) i j)).sum)
    ∧ (∀ j, j < (summaryCodes bundles).length →
        ((List.range N).map
          (fun i => entry (compile_summary bundles N) i j)).sum
          = (bundles.flatten.filter
              (fun r => decide
                (r.branch = (summaryCodes bundles).getD j ""))).length) := by
  have hnd := summaryCodes_nodup bundles
  refine ⟨compile_summary_length bundles N, ?_, ?_, ?_⟩
  · intro i hi
    rw [entry, compile_summary_row bundles N i hi, summaryRow_getD_last]
  · intro i hi
    have hcong : (List.range (summaryCodes bundles).length).map
        (fun j => entry (compile_summary bundles N) i j)
        = (List.range (summaryCodes bundles).length).map
          (fun j => ((bundles.getD i []).filter
            (fun r => decide
              (r.branch = (summaryCodes bundles).getD j ""))).length) := by
      apply List.map_congr_left
      intro j hj
      have hj' : j < (summaryCodes bundles).length := List.mem_range.mp hj
      rw [entry, compile_summary_row bundles N i hi,
        summaryRow_getD_lt _ _ _ hj']
    rw [entry, compile_summary_row bundles N i hi, summaryRow_getD_last,
      hcong, range_map_getD_sum (summaryCodes bundles) ""
        (fun c => ((bundles.getD i []).filter
          (fun r => decide (r.branch = c))).length)]
    refine (sum_counts_eq_length _ _ hnd ?_).symm
    intro r hr
    apply mem_summaryCodes.mpr
    apply List.mem_map_of_mem
    apply List.mem_flatten.mpr
    refine ⟨bundles.getD i [], ?_, hr⟩
    rw [List.getD_eq_getElem _ _ (by omega)]
    exact List.getElem_mem _
  · intro j hj
    have hcong : (List.range N).map
        (fun i => entry (compile_summary bundles N) i j)
        = (List.range N).map
          (fun i => ((bundles.getD i []).filter
            (fun r => decide
              (r.branch = (summaryCodes bundles).getD j ""))).length) := by
      apply List.map_congr_left
      intro i hi
      have hi' : i < N := List.mem_range.mp hi
      rw [entry, compile_summary_row bundles N i hi',
        summaryRow_getD_lt _ _ _ hj]
    rw [hcong, ← h, range_map_getD_sum bundles []
      (fun b => (b.filter (fun r => decide
        (r.branch = (summaryCodes bundles).getD j ""))).length)]
    exact sum_counts_flatten _ bundles

theorem summary_matrix_laws_witness :
    (branchwise_allocation sampleRecords 2).length = 2
    ∧ entry (compile_summary (branchwise_allocation sampleRecords 2) 2) 0
        (summaryCodes (branchwise_allocation sampleRecords 2)).length
      = ((branchwise_allocation sampleRecords 2).getD 0 []).length :=
  ⟨by decide,
    (summary_matrix_laws (branchwise_allocation sampleRecords 2) 2
      (by decide)).2.1 0 (by decide)⟩

/-- C8: the draw cycle is the fixed priority reference list filtered to
the branch codes present in the input (in reference order), followed by
the present codes outside the reference list in first-seen input order:
that suffix is a duplicate-free subsequence of the input's branch column,
ordered by first occurrence, holding exactly the present non-priority
codes. -/
theorem draw_cycle_spec (records : List Rec) :
    cycleOf records
      = priority_branches.filter
          (fun c => decide (c ∈ recordBranches records))
        ++ (active_codes records).filter
          (fun c => decide (c ∉ priority_branches))
    ∧ (∀ c, c ∈ cycleOf records ↔ c ∈ recordBranches records)
    ∧ ((active_codes records).filter
        (fun c => decide (c ∉ priority_branches))).Sublist
          (recordBranches records)
    ∧ ((active_codes records).filter
        (fun c => decide (c ∉ priority_branches))).Pairwise
          (fun c d => List.indexOf c (recordBranches records)
            < List.indexOf d (recordBranches records))
    ∧ (∀ c, c ∈ (active_codes records).filter
          (fun c => decide (c ∉ priority_branches))
        ↔ (c ∈ recordBranches records ∧ c ∉ priority_branches)) := by
  refine ⟨?_, fun c => mem_cycleOf, ?_, ?_, ?_⟩
  · rw [cycleOf]
    congr 1
    apply List.filter_congr
    intro c _
    exact decide_eq_decide.mpr mem_active_codes
  · exact ((active_codes records).filter_sublist).trans
      (uniqueKeepOrder_sublist _)
  · exact List.Pairwise.filter _ (uniqueKeepOrder_pairwise_indexOf _)
  · intro c
    rw [List.mem_filter]
    simp only [decide_eq_true_eq]
    constructor
    · rintro ⟨hc1, hc2⟩
      exact ⟨mem_active_codes.mp hc1, hc2⟩
    · rintro ⟨hc1, hc2⟩
      exact ⟨mem_active_codes.mpr hc1, hc2⟩

/-- C9: on the empty input with N = 5, both allocators return five empty
groups, and the summary of either result is a 5-row matrix with only the
Total column, all cells zero. -/
theorem empty_input_scenario :
    branchwise_allocation [] 5 = [[], [], [], [], []]
    ∧ uniform_allocation [] 5 = [[], [], [], [], []]
    ∧ compile_summary (branchwise_allocation [] 5) 5
        = [[0], [0], [0], [0], [0]]
    ∧ compile_summary (uniform_allocation [] 5) 5
        = [[0], [0], [0], [0], [0]] := by decide

/-- C10: the Branch-wise Allocator's total output record count equals the
input record count exactly — never strictly less: a no-progress round can
only occur with every stock empty, and the targets sum to the input size,
so the early-exit never leaves a record unallocated. -/
theorem branchwise_total_count (records : List Rec) (N : Nat) (h : 1 ≤ N) :
    ((branchwise_allocation records N).flatten).length = records.length := by
  rw [List.length_flatten, branchwise_map_length records N h,
    targetsOf_sum _ _ h]

theorem branchwise_total_count_witness :
    1 ≤ 3
    ∧ ((branchwise_allocation sampleRecords 3).flatten).length
        = sampleRecords.length :=
  ⟨by decide, branchwise_total_count sampleRecords 3 (by decide)⟩

end Tut01
